import Mathlib

/-!
Verification of the IR core of `src/lang/ir.cpp`: the IR tree model, the
`LowerAST` fixed-point lowering pass (signal-and-restart protocol), the
`IRPrinter`, and the expression-flattening algorithm.

The statement/expression node shapes, the flattening algorithm, the
`replace_with` splice primitive and the visitor-dispatch policy are declared
in `ir.h`, which is not part of the provided sources; those definitions are
modelled from the specification and marked as such in their doc comments.
The bodies of `IRPrinter`, `LowerAST` (both `run` drivers and every `visit`
method) are translated directly from `src/lang/ir.cpp`.
-/

namespace TaichiIR

/-- Binary operation kinds carried by `BinaryOpStmt` / binary expressions
(`bin->type` in the source; the concrete enum lives in `ir.h`). -/
inductive BinaryType where
  | add
  | sub
  | mul
  | div
  | mod
  | cmpLt
  | cmpGt

deriving DecidableEq, Repr

/-- Modelled from the spec: `binary_type_name` (declared in `ir.h`, missing
from src) renders a binary operation kind as text. -/
def binaryTypeName : BinaryType → String
  | .add => "add"
  | .sub => "sub"
  | .mul => "mul"
  | .div => "div"
  | .mod => "mod"
  | .cmpLt => "cmp_lt"
  | .cmpGt => "cmp_gt"

/-- Modelled from the spec (section 3): front-end expression tree nodes —
identifier reference, constant, and binary expression (the `ExprH` /
`Expression` hierarchy of `ir.h`, missing from src). Sharing of sub-trees
via `shared_ptr` is represented by the shared node unfolding to equal
sub-trees at each of its occurrences. -/
inductive Expr where
  | id (name : String)
  | constE (value : Int)
  | binary (op : BinaryType) (lhs rhs : Expr)

deriving DecidableEq, Repr

mutual

/-- Statement node variants of the IR tree, translated from the variants the
passes in `src/lang/ir.cpp` dispatch on. SSA statements reference previously
materialized operand statements by identity; identity is represented by the
`Nat` id a value-producing statement receives at creation time. -/
inductive Stmt where
  | assign (x : String) (rhs : Expr)
  | alloca (x : String)
  | binaryOp (n : Nat) (op : BinaryType) (lhs rhs : Nat)
  | localLoad (n : Nat) (x : String)
  | localStore (x : String) (operand : Nat)
  | constS (n : Nat) (value : Int)
  | printS (operand : Nat)
  | frontendPrint (e : Expr)
  | ifStmt (cond : Expr) (tb fb : OptBlock)
  | forStmt (v : String) (lo hi : Expr) (body : StmtList)

/-- An optional `StmtList` child (the nullable `true_statements` /
`false_statements` pointers of `IfStmt`). -/
inductive OptBlock where
  | none
  | some (l : StmtList)

/-- `StmtList`: an ordered sequence of owned statement nodes (a lexical
block). -/
inductive StmtList where
  | nil
  | cons (s : Stmt) (rest : StmtList)

end

deriving instance DecidableEq for Stmt, OptBlock, StmtList

/-- Append a freshly created statement sequence (a `VecStatement`,
represented as `List Stmt`) in front of a block. -/
def appendList : List Stmt → StmtList → StmtList
  | [], l => l
  | s :: rest, l => .cons s (appendList rest l)

/-- Convert a plain list into a block, for writing concrete test trees. -/
def ofList (l : List Stmt) : StmtList := appendList l .nil

/-- The id of a value-producing statement (`stmt->name()` identity in the
source); statements that produce no SSA value answer 0 (never consulted). -/
def valueIdOf : Stmt → Nat
  | .binaryOp n _ _ _ => n
  | .localLoad n _ => n
  | .constS n _ => n
  | _ => 0

/-- The id of the last statement of a `VecStatement`
(`flattened.back().get()` in the source); 0 on the empty sequence, which
flattening never produces. -/
def backIdOf (l : List Stmt) : Nat :=
  match l.getLast? with
  | Option.some s => valueIdOf s
  | Option.none => 0

/-- Modelled from the spec (section 4.3): `Expression::flatten` (declared in
`ir.h`, missing from src). Post-order, deterministic, left operand before
right operand: a constant emits one `ConstStmt`, an identifier emits one
`LocalLoadStmt`, a binary expression appends the flattening of its left
operand, then of its right operand, then one `BinaryOpStmt` referencing the
last statement of each operand's output. The `Nat` argument threads the
fresh-id counter; the result pairs the emitted sequence with the next fresh
id. -/
def flatten : Expr → Nat → List Stmt × Nat
  | .id x, n => ([.localLoad n x], n + 1)
  | .constE v, n => ([.constS n v], n + 1)
  | .binary op l r, n =>
    let L := flatten l n
    let R := flatten r L.2
    (L.1 ++ R.1 ++ [.binaryOp R.2 op (backIdOf L.1) (backIdOf R.1)], R.2 + 1)

/-- `LowerAST::visit(AssignStmt*)` (ir.cpp lines 154-168): flatten the rhs,
append a `LocalStoreStmt` binding the target identifier to the last
statement of the flattened sequence, and hand the sequence to
`replace_with`. -/
def lowerAssign (x : String) (rhs : Expr) (n : Nat) : List Stmt × Nat :=
  let flattened := (flatten rhs n).1
  (flattened ++ [.localStore x (backIdOf flattened)], (flatten rhs n).2)

/-- `LowerAST::visit(FrontendPrintStmt*)` (ir.cpp lines 136-145): flatten
the expression, append a `PrintStmt` referencing the last statement of the
flattened sequence, and hand the sequence to `replace_with`. -/
def lowerPrint (e : Expr) (n : Nat) : List Stmt × Nat :=
  let flattened := (flatten e n).1
  (flattened ++ [.printS (backIdOf flattened)], (flatten e n).2)

mutual

/-- One `LowerAST` traversal of a single statement. A returned
`Option.some (repl, n1)` means the traversal rewrote a node and threw
`IRModifiedException`: `repl` is the sequence this statement is replaced by
in its parent block (for a rewrite inside an `IfStmt`/`ForStmt` body the
node itself, rebuilt with the modified body). `Option.none` means the
traversal of this statement completed without throwing. Mirrors the `visit`
methods of `LowerAST` (ir.cpp lines 104-168): `AssignStmt` and
`FrontendPrintStmt` rewrite and throw; `IfStmt` recurses into
`true_statements` then `false_statements`; `ForStmt` recurses into its body;
every other variant is a no-op. -/
def stepStmt : Stmt → Nat → Option (List Stmt × Nat)
  | .assign x rhs, n => Option.some (lowerAssign x rhs n)
  | .frontendPrint e, n => Option.some (lowerPrint e n)
  | .ifStmt c tb fb, n =>
    match stepOpt tb n with
    | Option.some (tb1, n1) => Option.some ([.ifStmt c (.some tb1) fb], n1)
    | Option.none =>
      match stepOpt fb n with
      | Option.some (fb1, n1) => Option.some ([.ifStmt c tb (.some fb1)], n1)
      | Option.none => Option.none
  | .forStmt v lo hi body, n =>
    match stepList body n with
    | Option.some (body1, n1) => Option.some ([.forStmt v lo hi body1], n1)
    | Option.none => Option.none
  | _, _ => Option.none

/-- Traverse a nullable block child; a null pointer is skipped. -/
def stepOpt : OptBlock → Nat → Option (StmtList × Nat)
  | .none, _ => Option.none
  | .some l, n => stepList l n

/-- `LowerAST::visit(StmtList*)` (ir.cpp lines 104-108): visit the
statements in order; the first child whose visit rewrites gets its
replacement sequence spliced in place (the `replace_with` splice), and the
throw aborts the rest of the traversal. -/
def stepList : StmtList → Nat → Option (StmtList × Nat)
  | .nil, _ => Option.none
  | .cons s rest, n =>
    match stepStmt s n with
    | Option.some (repl, n1) => Option.some (appendList repl rest, n1)
    | Option.none =>
      match stepList rest n with
      | Option.some (rest1, n1) => Option.some (.cons s rest1, n1)
      | Option.none => Option.none

end

mutual

/-- Number of surviving high-level nodes (`AssignStmt` or
`FrontendPrintStmt`) in one statement, its nested blocks included. -/
def highStmt : Stmt → Nat
  | .assign _ _ => 1
  | .frontendPrint _ => 1
  | .ifStmt _ tb fb => highOpt tb + highOpt fb
  | .forStmt _ _ _ body => highList body
  | _ => 0

/-- Number of surviving high-level nodes under a nullable block child. -/
def highOpt : OptBlock → Nat
  | .none => 0
  | .some l => highList l

/-- Number of surviving high-level nodes in a block. -/
def highList : StmtList → Nat
  | .nil => 0
  | .cons s rest => highStmt s + highList rest

end

/-- Sum of `highStmt` over a freshly created statement sequence. -/
def highOfVec (l : List Stmt) : Nat := (l.map highStmt).sum

/-- The `while (true)` loop of `LowerAST::run` (ir.cpp lines 170-182),
with an explicit fuel bound: each iteration runs one full traversal
(`node->accept`); a caught `IRModifiedException` restarts the traversal on
the modified tree, and the loop exits when a traversal completes without
throwing. -/
def runFuel : Nat → StmtList → Nat → StmtList × Nat
  | 0, l, n => (l, n)
  | fuel + 1, l, n =>
    match stepList l n with
    | Option.none => (l, n)
    | Option.some (l1, n1) => runFuel fuel l1 n1

/-- `LowerAST::run` (ir.cpp lines 170-182). The fuel `highList l + 1` is
proved sufficient below: the loop reaches its exit condition within that
many traversals. -/
def runLower (l : StmtList) (n : Nat) : StmtList × Nat :=
  runFuel (highList l + 1) l n

/-- Number of traversals (`node->accept` calls) performed by the
`LowerAST::run` loop, counted with the same fuel bound. -/
def runItersFuel : Nat → StmtList → Nat → Nat
  | 0, _, _ => 0
  | fuel + 1, l, n =>
    match stepList l n with
    | Option.none => 1
    | Option.some (l1, n1) => runItersFuel fuel l1 n1 + 1

/-- Number of traversals performed by `LowerAST::run`. -/
def runIters (l : StmtList) (n : Nat) : Nat :=
  runItersFuel (highList l + 1) l n

mutual

/-- Count, over a statement and its nested blocks, of the nodes satisfying
the given variant predicate. -/
def countPS (p : Stmt → Bool) : Stmt → Nat
  | .ifStmt c tb fb =>
    (if p (.ifStmt c tb fb) then 1 else 0) + countPO p tb + countPO p fb
  | .forStmt v lo hi body =>
    (if p (.forStmt v lo hi body) then 1 else 0) + countPL p body
  | s => if p s then 1 else 0

/-- Count of matching nodes under a nullable block child. -/
def countPO (p : Stmt → Bool) : OptBlock → Nat
  | .none => 0
  | .some l => countPL p l

/-- Count of matching nodes in a block. -/
def countPL (p : Stmt → Bool) : StmtList → Nat
  | .nil => 0
  | .cons s rest => countPS p s + countPL p rest

end

/-- Variant test for `AssignStmt`. -/
def isAssign : Stmt → Bool
  | .assign _ _ => true
  | _ => false

/-- Variant test for `FrontendPrintStmt`. -/
def isFPrint : Stmt → Bool
  | .frontendPrint _ => true
  | _ => false

mutual

/-- Guard expressions of a statement in traversal order: the condition of
each `IfStmt` and the begin/end bounds of each `ForStmt`, nested blocks
included. -/
def guardsS : Stmt → List Expr
  | .ifStmt c tb fb => c :: (guardsO tb ++ guardsO fb)
  | .forStmt _ lo hi body => lo :: hi :: guardsL body
  | _ => []

/-- Guard expressions under a nullable block child. -/
def guardsO : OptBlock → List Expr
  | .none => []
  | .some l => guardsL l

/-- Guard expressions of a block in traversal order. -/
def guardsL : StmtList → List Expr
  | .nil => []
  | .cons s rest => guardsS s ++ guardsL rest

end

/-- Guard expressions of a freshly created statement sequence. -/
def guardsOfVec : List Stmt → List Expr
  | [] => []
  | s :: rest => guardsS s ++ guardsOfVec rest

/-- Modelled from the spec: `stmt->name()` / statement SSA value names
(declared in `ir.h`, missing from src), rendered from the statement id. -/
def stmtName (n : Nat) : String := "$" ++ toString n

/-- Modelled from the spec: type attributes are opaque to this core
(section 1); `type_hint()` (declared in `ir.h`, missing from src) is
rendered as a fixed placeholder. -/
def typeHintStr : String := "<type>"

/-- Modelled from the spec: `Expression::serialize` (declared in `ir.h`,
missing from src), the textual form of a front-end expression tree. -/
def Expr.serialize : Expr → String
  | .id x => x
  | .constE v => toString v
  | .binary op l r =>
    "(" ++ l.serialize ++ " " ++ binaryTypeName op ++ " " ++ r.serialize ++ ")"

/-- The indentation prefix emitted by `IRPrinter::print` (ir.cpp lines
15-21): two spaces per current indent level. -/
def indentStr : Nat → String
  | 0 => ""
  | k + 1 => "  " ++ indentStr k

mutual

/-- The lines `IRPrinter` emits for one statement when the current indent
level is `k`, translated from the `visit` methods of ir.cpp lines 28-86.
Visiting a nested `StmtList` increments the indent, so block bodies are
emitted at `k + 1`; the `IfStmt`/`ForStmt` opener, else-separator and
closer lines stay at `k`. -/
def printStmtLines (k : Nat) : Stmt → List String
  | .assign x rhs => [indentStr k ++ x ++ " = " ++ rhs.serialize]
  | .alloca x => [indentStr k ++ typeHintStr ++ " alloca " ++ x]
  | .binaryOp n op lhs rhs =>
    [indentStr k ++ typeHintStr ++ " " ++ stmtName n ++ " = " ++
      binaryTypeName op ++ " " ++ stmtName lhs ++ " " ++ stmtName rhs]
  | .ifStmt c tb fb =>
    (indentStr k ++ "if " ++ c.serialize ++ " \x7b") ::
      (printOptLines k tb ++
        (match fb with
         | .none => []
         | .some f => (indentStr k ++ "\x7d else \x7b") :: printListLines (k + 1) f) ++
        [indentStr k ++ "\x7d"])
  | .frontendPrint e => [indentStr k ++ "print " ++ e.serialize]
  | .printS n => [indentStr k ++ typeHintStr ++ " print " ++ stmtName n]
  | .constS n v =>
    [indentStr k ++ typeHintStr ++ " " ++ stmtName n ++ " = const " ++ toString v]
  | .forStmt v lo hi body =>
    (indentStr k ++ "for " ++ v ++ " in range(" ++ lo.serialize ++ ", " ++
        hi.serialize ++ ") \x7b") ::
      (printListLines (k + 1) body ++ [indentStr k ++ "\x7d"])
  | .localLoad n x => [indentStr k ++ stmtName n ++ " = load " ++ x]
  | .localStore x n => [indentStr k ++ "[store] " ++ x ++ " = " ++ stmtName n]

/-- Lines of a nullable block child: a null pointer emits nothing, a present
block is visited with the indent incremented (`visit(StmtList*)`). -/
def printOptLines (k : Nat) : OptBlock → List String
  | .none => []
  | .some l => printListLines (k + 1) l

/-- `IRPrinter::visit(StmtList*)` (ir.cpp lines 28-34) at indent level `k`:
the statements' lines in sequence order. -/
def printListLines (k : Nat) : StmtList → List String
  | .nil => []
  | .cons s rest => printStmtLines k s ++ printListLines k rest

end

/-- `IRPrinter::run` (ir.cpp lines 23-26) on a root `StmtList`:
`current_indent` starts at -1 and visiting the root block increments it, so
the root's statements print at indent level 0. -/
def printerRun (root : StmtList) : List String := printListLines 0 root

/-- Modelled from the spec (section 4.1): `StmtList::replace_with(target,
replacement)` (declared in `ir.h`, missing from src), acting on the parent
block's list of statements. It locates `target` and splices the replacement
sequence in its place, transferring ownership; `Option.none` models the
fatal programmer error raised when `target` is not found in its claimed
parent. -/
def replaceWith : List Stmt → Stmt → List Stmt → Option (List Stmt)
  | [], _, _ => Option.none
  | s :: rest, target, repl =>
    if s = target then Option.some (repl ++ rest)
    else (replaceWith rest target repl).map (fun l => s :: l)

/-- Modelled from the spec (section 4.2): the visitor dispatch policy
(declared in `ir.h`, missing from src). A visitor is characterized by which
variants it declares handlers for and by its `allow_undefined_visitor`
flag. -/
structure Visitor where
  allowUndefined : Bool
  handles : Stmt → Bool

/-- Outcome of dispatching one node to a visitor. -/
inductive DispatchResult where
  | handled
  | noop
  | fatalError

deriving DecidableEq

/-- Modelled from the spec (section 4.2): dispatching a statement to a
visitor runs the declared handler if there is one; otherwise a permissive
visitor (`allow_undefined_visitor = true`) treats the visit as a no-op and
a strict visitor (the default) fails fatally. -/
def dispatch (v : Visitor) (s : Stmt) : DispatchResult :=
  if v.handles s then .handled
  else if v.allowUndefined then .noop
  else .fatalError

/-- The `TypeCheck` pass (ir.cpp lines 189-193): declares no `visit`
handler and opts into permissive dispatch via
`allow_undefined_visitor = true`. -/
def typeCheckVisitor : Visitor :=
  { allowUndefined := true, handles := fun _ => false }

/-- Number of `LocalLoadStmt`s for identifier `x` in a statement
sequence. -/
def countLoadsOf (x : String) (l : List Stmt) : Nat :=
  (l.filter (fun s =>
    match s with
    | .localLoad _ y => y = x
    | _ => false)).length

/-- Number of nodes of an expression tree. -/
def exprSize : Expr → Nat
  | .id _ => 1
  | .constE _ => 1
  | .binary _ l r => exprSize l + exprSize r + 1

theorem flatten_ne_nil (e : Expr) (n : Nat) : (flatten e n).1 ≠ [] := by
  cases e <;> simp [flatten]

theorem highOfVec_append (a b : List Stmt) :
    highOfVec (a ++ b) = highOfVec a + highOfVec b := by
  simp [highOfVec]

theorem highOfVec_flatten (e : Expr) (n : Nat) : highOfVec (flatten e n).1 = 0 := by
  induction e generalizing n with
  | id x => simp [flatten, highOfVec, highStmt]
  | constE v => simp [flatten, highOfVec, highStmt]
  | binary op l r ihl ihr =>
    simp only [flatten, highOfVec_append, ihl, ihr]
    simp [highOfVec, highStmt]

theorem highList_appendList (a : List Stmt) (l : StmtList) :
    highList (appendList a l) = highOfVec a + highList l := by
  induction a with
  | nil => simp [appendList, highOfVec, highList]
  | cons s rest ih =>
    simp [appendList, highOfVec, highList, ih]
    omega

mutual

theorem stepStmt_high {s : Stmt} {n : Nat} {repl : List Stmt} {n1 : Nat}
    (h : stepStmt s n = Option.some (repl, n1)) : highOfVec repl + 1 = highStmt s := by
  cases s with
  | assign x rhs =>
    simp [stepStmt, lowerAssign] at h
    obtain ⟨h1, h2⟩ := h
    subst h1
    have hf := highOfVec_flatten rhs n
    simp [highOfVec, highStmt] at hf ⊢
    simp [hf]
  | frontendPrint e =>
    simp [stepStmt, lowerPrint] at h
    obtain ⟨h1, h2⟩ := h
    subst h1
    have hf := highOfVec_flatten e n
    simp [highOfVec, highStmt] at hf ⊢
    simp [hf]
  | ifStmt c tb fb =>
    cases htb : stepOpt tb n with
    | some p =>
      obtain ⟨tb1, n2⟩ := p
      have hdec := stepOpt_high htb
      simp [stepStmt, htb] at h
      obtain ⟨h1, h2⟩ := h
      subst h1
      simp [highOfVec, highStmt, highOpt]
      omega
    | none =>
      cases hfb : stepOpt fb n with
      | some p =>
        obtain ⟨fb1, n2⟩ := p
        have hdec := stepOpt_high hfb
        simp [stepStmt, htb, hfb] at h
        obtain ⟨h1, h2⟩ := h
        subst h1
        simp [highOfVec, highStmt, highOpt]
        omega
      | none => simp [stepStmt, htb, hfb] at h
  | forStmt v lo hi body =>
    cases hb : stepList body n with
    | some p =>
      obtain ⟨body1, n2⟩ := p
      have hdec := stepList_high hb
      simp [stepStmt, hb] at h
      obtain ⟨h1, h2⟩ := h
      subst h1
      simp [highOfVec, highStmt]
      omega
    | none => simp [stepStmt, hb] at h
  | alloca x => simp [stepStmt] at h
  | binaryOp a b c d => simp [stepStmt] at h
  | localLoad a b => simp [stepStmt] at h
  | localStore a b => simp [stepStmt] at h
  | constS a b => simp [stepStmt] at h
  | printS a => simp [stepStmt] at h

theorem stepOpt_high {ob : OptBlock} {n : Nat} {l1 : StmtList} {n1 : Nat}
    (h : stepOpt ob n = Option.some (l1, n1)) : highList l1 + 1 = highOpt ob := by
  cases ob with
  | none => simp [stepOpt] at h
  | some l =>
    have := stepList_high (h := by simpa [stepOpt] using h)
    simpa [highOpt] using this

theorem stepList_high {l : StmtList} {n : Nat} {l1 : StmtList} {n1 : Nat}
    (h : stepList l n = Option.some (l1, n1)) : highList l1 + 1 = highList l := by
  cases l with
  | nil => simp [stepList] at h
  | cons s rest =>
    cases hs : stepStmt s n with
    | some p =>
      obtain ⟨repl, n2⟩ := p
      have hdec := stepStmt_high hs
      simp [stepList, hs] at h
      obtain ⟨h1, h2⟩ := h
      subst h1
      simp [highList, highList_appendList]
      omega
    | none =>
      cases hr : stepList rest n with
      | some p =>
        obtain ⟨rest1, n2⟩ := p
        have hdec := stepList_high hr
        simp [stepList, hs, hr] at h
        obtain ⟨h1, h2⟩ := h
        subst h1
        simp [highList]
        omega
      | none => simp [stepList, hs, hr] at h

end

mutual

theorem stepStmt_none {s : Stmt} {n : Nat} (h : stepStmt s n = Option.none) :
    highStmt s = 0 := by
  cases s with
  | assign x rhs => simp [stepStmt] at h
  | frontendPrint e => simp [stepStmt] at h
  | ifStmt c tb fb =>
    cases htb : stepOpt tb n with
    | some p => simp [stepStmt, htb] at h
    | none =>
      cases hfb : stepOpt fb n with
      | some p => simp [stepStmt, htb, hfb] at h
      | none =>
        have h1 := stepOpt_none htb
        have h2 := stepOpt_none hfb
        simp [highStmt, h1, h2]
  | forStmt v lo hi body =>
    cases hb : stepList body n with
    | some p => simp [stepStmt, hb] at h
    | none =>
      have := stepList_none hb
      simpa [highStmt] using this
  | alloca x => simp [highStmt]
  | binaryOp a b c d => simp [highStmt]
  | localLoad a b => simp [highStmt]
  | localStore a b => simp [highStmt]
  | constS a b => simp [highStmt]
  | printS a => simp [highStmt]

theorem stepOpt_none {ob : OptBlock} {n : Nat} (h : stepOpt ob n = Option.none) :
    highOpt ob = 0 := by
  cases ob with
  | none => simp [highOpt]
  | some l =>
    have := stepList_none (h := by simpa [stepOpt] using h)
    simpa [highOpt] using this

theorem stepList_none {l : StmtList} {n : Nat} (h : stepList l n = Option.none) :
    highList l = 0 := by
  cases l with
  | nil => simp [highList]
  | cons s rest =>
    cases hs : stepStmt s n with
    | some p => simp [stepList, hs] at h
    | none =>
      cases hr : stepList rest n with
      | some p => simp [stepList, hs, hr] at h
      | none =>
        have h1 := stepStmt_none hs
        have h2 := stepList_none hr
        simp [highList, h1, h2]

end

theorem runFuel_fixed :
    ∀ (fuel : Nat) (l : StmtList) (n : Nat), highList l < fuel →
      stepList (runFuel fuel l n).1 (runFuel fuel l n).2 = Option.none := by
  intro fuel
  induction fuel with
  | zero => intro l n h; omega
  | succ f ih =>
    intro l n h
    cases hs : stepList l n with
    | none => simp [runFuel, hs]
    | some p =>
      obtain ⟨l1, n1⟩ := p
      have hd := stepList_high hs
      simp only [runFuel, hs]
      exact ih l1 n1 (by omega)

theorem runItersFuel_eq :
    ∀ (fuel : Nat) (l : StmtList) (n : Nat), highList l < fuel →
      runItersFuel fuel l n = highList l + 1 := by
  intro fuel
  induction fuel with
  | zero => intro l n h; omega
  | succ f ih =>
    intro l n h
    cases hs : stepList l n with
    | none =>
      have h0 := stepList_none hs
      simp [runItersFuel, hs, h0]
    | some p =>
      obtain ⟨l1, n1⟩ := p
      have hd := stepList_high hs
      simp only [runItersFuel, hs]
      rw [ih l1 n1 (by omega)]
      omega

theorem stepList_runLower (l : StmtList) (n : Nat) :
    stepList (runLower l n).1 (runLower l n).2 = Option.none :=
  runFuel_fixed (highList l + 1) l n (Nat.lt_succ_self _)

theorem highList_runLower (l : StmtList) (n : Nat) :
    highList (runLower l n).1 = 0 :=
  stepList_none (stepList_runLower l n)

mutual

theorem count_split_stmt (s : Stmt) :
    countPS isAssign s + countPS isFPrint s = highStmt s := by
  cases s with
  | ifStmt c tb fb =>
    have h1 := count_split_opt tb
    have h2 := count_split_opt fb
    simp [countPS, isAssign, isFPrint, highStmt]
    omega
  | forStmt v lo hi body =>
    have h1 := count_split_list body
    simp [countPS, isAssign, isFPrint, highStmt]
    omega
  | assign x rhs => simp [countPS, isAssign, isFPrint, highStmt]
  | frontendPrint e => simp [countPS, isAssign, isFPrint, highStmt]
  | alloca x => simp [countPS, isAssign, isFPrint, highStmt]
  | binaryOp a b c d => simp [countPS, isAssign, isFPrint, highStmt]
  | localLoad a b => simp [countPS, isAssign, isFPrint, highStmt]
  | localStore a b => simp [countPS, isAssign, isFPrint, highStmt]
  | constS a b => simp [countPS, isAssign, isFPrint, highStmt]
  | printS a => simp [countPS, isAssign, isFPrint, highStmt]

theorem count_split_opt (ob : OptBlock) :
    countPO isAssign ob + countPO isFPrint ob = highOpt ob := by
  cases ob with
  | none => simp [countPO, highOpt]
  | some l =>
    simp only [countPO, highOpt]
    exact count_split_list l

theorem count_split_list (l : StmtList) :
    countPL isAssign l + countPL isFPrint l = highList l := by
  cases l with
  | nil => simp [countPL, highList]
  | cons s rest =>
    have h1 := count_split_stmt s
    have h2 := count_split_list rest
    simp [countPL, highList]
    omega

end

theorem guardsOfVec_append (a b : List Stmt) :
    guardsOfVec (a ++ b) = guardsOfVec a ++ guardsOfVec b := by
  induction a with
  | nil => simp [guardsOfVec]
  | cons s rest ih => simp [guardsOfVec, ih]

theorem guardsOfVec_flatten (e : Expr) (n : Nat) :
    guardsOfVec (flatten e n).1 = [] := by
  induction e generalizing n with
  | id x => simp [flatten, guardsOfVec, guardsS]
  | constE v => simp [flatten, guardsOfVec, guardsS]
  | binary op l r ihl ihr =>
    simp only [flatten, guardsOfVec_append, ihl, ihr]
    simp [guardsOfVec, guardsS]

theorem guardsL_appendList (a : List Stmt) (l : StmtList) :
    guardsL (appendList a l) = guardsOfVec a ++ guardsL l := by
  induction a with
  | nil => simp [appendList, guardsOfVec, guardsL]
  | cons s rest ih => simp [appendList, guardsOfVec, guardsL, ih]

mutual

theorem stepStmt_guards {s : Stmt} {n : Nat} {repl : List Stmt} {n1 : Nat}
    (h : stepStmt s n = Option.some (repl, n1)) : guardsOfVec repl = guardsS s := by
  cases s with
  | assign x rhs =>
    simp [stepStmt, lowerAssign] at h
    obtain ⟨h1, h2⟩ := h
    subst h1
    have hf := guardsOfVec_flatten rhs n
    simp [guardsOfVec_append, guardsOfVec, guardsS, hf]
  | frontendPrint e =>
    simp [stepStmt, lowerPrint] at h
    obtain ⟨h1, h2⟩ := h
    subst h1
    have hf := guardsOfVec_flatten e n
    simp [guardsOfVec_append, guardsOfVec, guardsS, hf]
  | ifStmt c tb fb =>
    cases htb : stepOpt tb n with
    | some p =>
      obtain ⟨tb1, n2⟩ := p
      have hg := stepOpt_guards htb
      simp [stepStmt, htb] at h
      obtain ⟨h1, h2⟩ := h
      subst h1
      simp [guardsOfVec, guardsS, guardsO, hg]
    | none =>
      cases hfb : stepOpt fb n with
      | some p =>
        obtain ⟨fb1, n2⟩ := p
        have hg := stepOpt_guards hfb
        simp [stepStmt, htb, hfb] at h
        obtain ⟨h1, h2⟩ := h
        subst h1
        simp [guardsOfVec, guardsS, guardsO, hg]
      | none => simp [stepStmt, htb, hfb] at h
  | forStmt v lo hi body =>
    cases hb : stepList body n with
    | some p =>
      obtain ⟨body1, n2⟩ := p
      have hg := stepList_guards hb
      simp [stepStmt, hb] at h
      obtain ⟨h1, h2⟩ := h
      subst h1
      simp [guardsOfVec, guardsS, hg]
    | none => simp [stepStmt, hb] at h
  | alloca x => simp [stepStmt] at h
  | binaryOp a b c d => simp [stepStmt] at h
  | localLoad a b => simp [stepStmt] at h
  | localStore a b => simp [stepStmt] at h
  | constS a b => simp [stepStmt] at h
  | printS a => simp [stepStmt] at h

theorem stepOpt_guards {ob : OptBlock} {n : Nat} {l1 : StmtList} {n1 : Nat}
    (h : stepOpt ob n = Option.some (l1, n1)) : guardsL l1 = guardsO ob := by
  cases ob with
  | none => simp [stepOpt] at h
  | some l =>
    have := stepList_guards (h := by simpa [stepOpt] using h)
    simpa [guardsO] using this

theorem stepList_guards {l : StmtList} {n : Nat} {l1 : StmtList} {n1 : Nat}
    (h : stepList l n = Option.some (l1, n1)) : guardsL l1 = guardsL l := by
  cases l with
  | nil => simp [stepList] at h
  | cons s rest =>
    cases hs : stepStmt s n with
    | some p =>
      obtain ⟨repl, n2⟩ := p
      have hg := stepStmt_guards hs
      simp [stepList, hs] at h
      obtain ⟨h1, h2⟩ := h
      subst h1
      simp [guardsL, guardsL_appendList, hg]
    | none =>
      cases hr : stepList rest n with
      | some p =>
        obtain ⟨rest1, n2⟩ := p
        have hg := stepList_guards hr
        simp [stepList, hs, hr] at h
        obtain ⟨h1, h2⟩ := h
        subst h1
        simp [guardsL, hg]
      | none => simp [stepList, hs, hr] at h

end

theorem runFuel_guards :
    ∀ (fuel : Nat) (l : StmtList) (n : Nat),
      guardsL (runFuel fuel l n).1 = guardsL l := by
  intro fuel
  induction fuel with
  | zero => intro l n; simp [runFuel]
  | succ f ih =>
    intro l n
    cases hs : stepList l n with
    | none => simp [runFuel, hs]
    | some p =>
      obtain ⟨l1, n1⟩ := p
      have hg := stepList_guards hs
      simp only [runFuel, hs]
      rw [ih l1 n1, hg]

mutual

theorem printStmtLines_shift (k : Nat) (s : Stmt) :
    printStmtLines (k + 1) s = (printStmtLines k s).map (fun t => "  " ++ t) := by
  cases s with
  | ifStmt c tb fb =>
    have h1 := printOptLines_shift k tb
    cases fb with
    | none => simp [printStmtLines, indentStr, String.append_assoc, h1, printOptLines]
    | some f =>
      have h2 := printListLines_shift (k + 1) f
      simp [printStmtLines, indentStr, String.append_assoc, h1, h2]
  | forStmt v lo hi body =>
    have h1 := printListLines_shift (k + 1) body
    simp [printStmtLines, indentStr, String.append_assoc, h1]
  | assign x rhs => simp [printStmtLines, indentStr, String.append_assoc]
  | alloca x => simp [printStmtLines, indentStr, String.append_assoc]
  | binaryOp n op lhs rhs => simp [printStmtLines, indentStr, String.append_assoc]
  | frontendPrint e => simp [printStmtLines, indentStr, String.append_assoc]
  | printS n => simp [printStmtLines, indentStr, String.append_assoc]
  | constS n v => simp [printStmtLines, indentStr, String.append_assoc]
  | localLoad n x => simp [printStmtLines, indentStr, String.append_assoc]
  | localStore x n => simp [printStmtLines, indentStr, String.append_assoc]

theorem printOptLines_shift (k : Nat) (ob : OptBlock) :
    printOptLines (k + 1) ob = (printOptLines k ob).map (fun t => "  " ++ t) := by
  cases ob with
  | none => simp [printOptLines]
  | some l =>
    have := printListLines_shift (k + 1) l
    simpa [printOptLines] using this

theorem printListLines_shift (k : Nat) (l : StmtList) :
    printListLines (k + 1) l = (printListLines k l).map (fun t => "  " ++ t) := by
  cases l with
  | nil => simp [printListLines]
  | cons s rest =>
    have h1 := printStmtLines_shift k s
    have h2 := printListLines_shift k rest
    simp [printListLines, h1, h2]

end

theorem flatten_length (e : Expr) (n : Nat) :
    (flatten e n).1.length = exprSize e := by
  induction e generalizing n with
  | id x => simp [flatten, exprSize]
  | constE v => simp [flatten, exprSize]
  | binary op l r ihl ihr =>
    simp [flatten, exprSize, ihl, ihr]
    omega

theorem replaceWith_found (suf repl : List Stmt) (target : Stmt) :
    ∀ pre : List Stmt, target ∉ pre →
      replaceWith (pre ++ target :: suf) target repl =
        Option.some (pre ++ repl ++ suf) := by
  intro pre
  induction pre with
  | nil => intro _; simp [replaceWith]
  | cons a as ih =>
    intro h
    simp only [List.mem_cons, not_or] at h
    obtain ⟨hne, h2⟩ := h
    have hne1 : ¬(a = target) := fun hh => hne hh.symm
    simp [replaceWith, hne1, ih h2]

theorem replaceWith_not_found (repl : List Stmt) (target : Stmt) :
    ∀ l : List Stmt, target ∉ l → replaceWith l target repl = Option.none := by
  intro l
  induction l with
  | nil => intro _; simp [replaceWith]
  | cons a as ih =>
    intro h
    simp only [List.mem_cons, not_or] at h
    obtain ⟨hne, h2⟩ := h
    have hne1 : ¬(a = target) := fun hh => hne hh.symm
    simp [replaceWith, hne1, ih h2]

/-- C1: for every finite input tree, `LowerAST::run` terminates — the
driver loop reaches its fixed point, leaving zero `AssignStmt` and zero
`FrontendPrintStmt` nodes in the tree — in at most the initial
high-level-node count plus one full traversals, and flattening introduces
no new `AssignStmt`/`FrontendPrintStmt` nodes. -/
theorem lowerAST_fixed_point_termination (l : StmtList) (n : Nat) (e : Expr) (m : Nat) :
    countPL isAssign (runLower l n).1 = 0 ∧
    countPL isFPrint (runLower l n).1 = 0 ∧
    runIters l n ≤ countPL isAssign l + countPL isFPrint l + 1 ∧
    highOfVec (flatten e m).1 = 0 := by
  have h0 := highList_runLower l n
  have hsplit := count_split_list (runLower l n).1
  have hsplit2 := count_split_list l
  have hit : runIters l n = highList l + 1 :=
    runItersFuel_eq (highList l + 1) l n (Nat.lt_succ_self _)
  exact ⟨by omega, by omega, by omega, highOfVec_flatten e m⟩

/-- C2: lowering an `AssignStmt` replaces it in its parent block with the
flattening of its right-hand side followed by one `LocalStoreStmt` binding
the target identifier to the last statement of the flattened sequence; in
particular `x = x + 1` lowers to load(x), const(1),
binaryop(add, load(x), const(1)), store(x, binaryop). -/
theorem assignStmt_lowering (x : String) (rhs : Expr) (n : Nat) (rest : StmtList) :
    stepList (.cons (.assign x rhs) rest) n =
      Option.some
        (appendList ((flatten rhs n).1 ++ [.localStore x (backIdOf (flatten rhs n).1)]) rest,
          (flatten rhs n).2) ∧
    (∃ s, ((flatten rhs n).1).getLast? = Option.some s ∧
      backIdOf (flatten rhs n).1 = valueIdOf s) ∧
    runLower (ofList [.assign "x" (.binary .add (.id "x") (.constE 1))]) 0 =
      (ofList [.localLoad 0 "x", .constS 1 1, .binaryOp 2 .add 0 1,
        .localStore "x" 2], 3) := by
  refine ⟨by simp [stepList, stepStmt, lowerAssign], ?_, by decide⟩
  cases hl : ((flatten rhs n).1).getLast? with
  | none => exact absurd (List.getLast?_eq_none_iff.mp hl) (flatten_ne_nil rhs n)
  | some s => exact ⟨s, rfl, by simp [backIdOf, hl]⟩

/-- C3: lowering a `FrontendPrintStmt` replaces it in its parent block with
the flattening of its expression followed by exactly one `PrintStmt` whose
operand is the last statement of the flattened sequence; in particular
`print(a < 500)` lowers to the comparison flattening sequence followed by
one `PrintStmt` referencing its final statement. -/
theorem frontendPrint_lowering (e : Expr) (n : Nat) (rest : StmtList) :
    stepList (.cons (.frontendPrint e) rest) n =
      Option.some
        (appendList ((flatten e n).1 ++ [.printS (backIdOf (flatten e n).1)]) rest,
          (flatten e n).2) ∧
    (∃ s, ((flatten e n).1).getLast? = Option.some s ∧
      backIdOf (flatten e n).1 = valueIdOf s) ∧
    runLower (ofList [.frontendPrint (.binary .cmpLt (.id "a") (.constE 500))]) 0 =
      (ofList [.localLoad 0 "a", .constS 1 500, .binaryOp 2 .cmpLt 0 1, .printS 2], 3) := by
  refine ⟨by simp [stepList, stepStmt, lowerPrint], ?_, by decide⟩
  cases hl : ((flatten e n).1).getLast? with
  | none => exact absurd (List.getLast?_eq_none_iff.mp hl) (flatten_ne_nil e n)
  | some s => exact ⟨s, rfl, by simp [backIdOf, hl]⟩

/-- C4: flattening emits statements in post-order, the left operand's
statements strictly before the right operand's and the combining
`BinaryOpStmt` last; flattening `a + b` produces load(a), load(b),
binaryop(add, load(a), load(b)), and flattening `(a + b) + c` produces
load(a), load(b), binaryop1, load(c), binaryop2(binaryop1, load(c)). -/
theorem flatten_evaluation_order (op : BinaryType) (l r : Expr) (n : Nat) :
    (flatten (.binary op l r) n).1 =
      (flatten l n).1 ++ (flatten r (flatten l n).2).1 ++
        [.binaryOp (flatten r (flatten l n).2).2 op (backIdOf (flatten l n).1)
          (backIdOf (flatten r (flatten l n).2).1)] ∧
    flatten (.binary .add (.id "a") (.id "b")) 0 =
      ([.localLoad 0 "a", .localLoad 1 "b", .binaryOp 2 .add 0 1], 3) ∧
    flatten (.binary .add (.binary .add (.id "a") (.id "b")) (.id "c")) 0 =
      ([.localLoad 0 "a", .localLoad 1 "b", .binaryOp 2 .add 0 1,
        .localLoad 3 "c", .binaryOp 4 .add 2 3], 5) :=
  ⟨rfl, by decide, by decide⟩

/-- C5: if the target is present in its claimed parent block, `replace_with`
splices the replacement sequence in the target's place, the target is
absent afterwards, every replacement node lives in the former parent, and
the surrounding sibling order is preserved; if the target is not found,
`replace_with` fails fatally (modelled as `Option.none`) rather than
silently ignoring the mismatch. -/
theorem structural_replace_correct (pre suf repl : List Stmt) (target : Stmt)
    (hpre : target ∉ pre) :
    replaceWith (pre ++ target :: suf) target repl = Option.some (pre ++ repl ++ suf) ∧
    (∀ x ∈ repl, x ∈ pre ++ repl ++ suf) ∧
    (target ∉ repl → target ∉ suf → target ∉ pre ++ repl ++ suf) ∧
    (∀ l : List Stmt, target ∉ l → replaceWith l target repl = Option.none) := by
  refine ⟨replaceWith_found suf repl target pre hpre, ?_, ?_,
    replaceWith_not_found repl target⟩
  · intro x hx
    simp [List.mem_append, hx]
  · intro h1 h2
    simp [List.mem_append, hpre, h1, h2]

theorem structural_replace_correct_witness :
    replaceWith ([Stmt.alloca "a"] ++ Stmt.assign "x" (.id "y") :: [Stmt.alloca "b"])
        (Stmt.assign "x" (.id "y")) [Stmt.localStore "x" 0] =
      Option.some ([Stmt.alloca "a"] ++ [Stmt.localStore "x" 0] ++ [Stmt.alloca "b"]) :=
  (structural_replace_correct [Stmt.alloca "a"] [Stmt.alloca "b"]
    [Stmt.localStore "x" 0] (Stmt.assign "x" (.id "y")) (by decide)).1

/-- C6: the tree-modified signal is always consumed inside `LowerAST::run`
(the driver is a total function whose loop exits only on a traversal that
completes without a signal), and each caught signal causes exactly one
fresh restart: the loop performs exactly one traversal per rewrite plus the
final signal-free one. -/
theorem signal_restart_protocol (l : StmtList) (n : Nat) :
    stepList (runLower l n).1 (runLower l n).2 = Option.none ∧
    runIters l n = highList l + 1 :=
  ⟨stepList_runLower l n,
    runItersFuel_eq (highList l + 1) l n (Nat.lt_succ_self _)⟩

/-- C7: a strict (default) visitor dispatched on a variant it declares no
handler for fails fatally, whereas the `TypeCheck` pass, which opts into
permissive dispatch via `allow_undefined_visitor = true`, treats every
unhandled variant as a no-op. -/
theorem strict_dispatch_policy (v : Visitor) (s : Stmt)
    (hstrict : v.allowUndefined = false) (hmiss : v.handles s = false) :
    dispatch v s = .fatalError ∧ dispatch typeCheckVisitor s = .noop := by
  constructor
  · simp [dispatch, hstrict, hmiss]
  · simp [dispatch, typeCheckVisitor]

theorem strict_dispatch_policy_witness :
    dispatch ⟨false, fun _ => false⟩ (Stmt.alloca "a") = .fatalError ∧
    dispatch typeCheckVisitor (Stmt.alloca "a") = .noop :=
  strict_dispatch_policy ⟨false, fun _ => false⟩ (Stmt.alloca "a") rfl rfl

/-- C8 counterexample: an `IfStmt` with an empty true branch and no false
branch is one statement but the printer emits two lines for it (its opener
and its closing brace), so the printer does not emit exactly one output
line per statement. -/
theorem printer_one_line_counterexample :
    (printerRun (ofList [.ifStmt (.id "a") (.some .nil) .none])).length = 2 ∧
    countPL (fun _ => true) (ofList [.ifStmt (.id "a") (.some .nil) .none]) = 1 ∧
    (printerRun (ofList [.ifStmt (.id "a") (.some .nil) .none])).length ≠
      countPL (fun _ => true) (ofList [.ifStmt (.id "a") (.some .nil) .none]) := by
  decide

/-- C8 (amended): every non-block statement prints as one line in the
section-6 per-variant format — a `ConstStmt` as
`<type> <name> = const <value>`, a `LocalStoreStmt` as
`[store] <id> = <operand-name>` — an `IfStmt` without a false branch omits
the `} else {` line, and entering a block raises the indent by one level,
prefixing every line of the block with two further spaces. -/
theorem printer_format (k n : Nat) (x : String) (v : Int) (c : Expr)
    (t l : StmtList) :
    printStmtLines k (.constS n v) =
      [indentStr k ++ typeHintStr ++ " " ++ stmtName n ++ " = const " ++ toString v] ∧
    printStmtLines k (.localStore x n) =
      [indentStr k ++ "[store] " ++ x ++ " = " ++ stmtName n] ∧
    printStmtLines k (.ifStmt c (.some t) .none) =
      (indentStr k ++ "if " ++ c.serialize ++ " \x7b") ::
        (printListLines (k + 1) t ++ [indentStr k ++ "\x7d"]) ∧
    printListLines (k + 1) l = (printListLines k l).map (fun s => "  " ++ s) := by
  refine ⟨rfl, rfl, ?_, printListLines_shift k l⟩
  simp [printStmtLines, printOptLines]

/-- C9 counterexample: the two operands of `a + a` reference the same
shared `IdExpression` node, yet flattening the sum materializes that
sub-tree twice in one flatten call (two `LocalLoadStmt`s for `a`). -/
theorem flatten_shared_counterexample :
    (flatten (.binary .add (.id "a") (.id "a")) 0).1 =
      [.localLoad 0 "a", .localLoad 1 "a", .binaryOp 2 .add 0 1] ∧
    countLoadsOf "a" (flatten (.binary .add (.id "a") (.id "a")) 0).1 = 2 := by
  decide

/-- C9 (amended): flattening performs no memoization within one call — a
sub-expression referenced from both operand positions of a binary
expression is flattened (and thus evaluated) once per reference, so the
output holds two full copies of its statements plus the combining
operation. -/
theorem flatten_no_memoization (op : BinaryType) (e : Expr) (n : Nat) :
    (flatten (.binary op e e) n).1 =
      (flatten e n).1 ++ (flatten e (flatten e n).2).1 ++
        [.binaryOp (flatten e (flatten e n).2).2 op (backIdOf (flatten e n).1)
          (backIdOf (flatten e (flatten e n).2).1)] ∧
    (flatten (.binary op e e) n).1.length = 2 * exprSize e + 1 := by
  refine ⟨rfl, ?_⟩
  simp [flatten, flatten_length]
  omega

/-- C10: the lowering pass recurses only into the `StmtList` bodies of
`IfStmt` and `ForStmt` nodes; the condition of every `IfStmt` and the
begin/end bounds of every `ForStmt` (collected in traversal order by
`guardsL`) are exactly the same expression trees after `LowerAST::run` as
before. -/
theorem guards_preserved (l : StmtList) (n : Nat) (c lo hi : Expr)
    (tb fb : OptBlock) (v : String) (body : StmtList) :
    guardsL (runLower l n).1 = guardsL l ∧
    guardsS (.ifStmt c tb fb) = c :: (guardsO tb ++ guardsO fb) ∧
    guardsS (.forStmt v lo hi body) = lo :: hi :: guardsL body :=
  ⟨runFuel_guards (highList l + 1) l n, rfl, rfl⟩

end TaichiIR
